import Mathlib

/-!
Verification of `lib/vdsm/storage/guarded.py`: a context manager that
deduplicates and sorts a collection of storage locks, acquires them in
sorted order on entry (rolling back on failure), and releases them in
reverse acquisition order on exit, aggregating release errors.

The embedding below translates the Python classes `AbstractLock` and
`context` into pure Lean functions.  Side effects (the `acquire()` /
`release()` calls made on the lock objects, the errors raised, and the
errors written to the log) are made explicit: each guard operation
returns the updated context state, the trace of lock calls it performed,
the exception it raises to the caller (if any), and the list of errors
it logged.  Whether a given lock's `acquire()` or `release()` call
succeeds is supplied by oracles `aOk`, `rOk : AbstractLock → Bool`.
-/

/-- A lock, as visible through `AbstractLock`: its concrete Python type
(`type(self)`, modelled as a tag `ty`), its namespace `ns`, its `name`
and its `mode`.  The Python values are opaque orderable objects; they
are modelled as naturals, which is enough for the comparison and
deduplication behaviour the guard relies on. -/
structure AbstractLock where
  ty : Nat
  ns : Nat
  name : Nat
  mode : Nat
deriving DecidableEq

/-- `AbstractLock._key`: `(type(self), self.ns, self.name, self.mode)`. -/
def lock_key (x : AbstractLock) : Nat × Nat × Nat × Nat :=
  (x.ty, x.ns, x.name, x.mode)

/-- `AbstractLock.__eq__`: `self._key() == other._key()`. -/
def lock_eq (x y : AbstractLock) : Bool :=
  lock_key x == lock_key y

/-- Python tuple comparison `(a1, a2) < (b1, b2)` (lexicographic). -/
def pyPairLt (a b : Nat × Nat) : Bool :=
  a.1 < b.1 || (a.1 == b.1 && a.2 < b.2)

/-- `AbstractLock.__lt__`: `(self.ns, self.name) < (other.ns, other.name)`. -/
def lock_lt (x y : AbstractLock) : Bool :=
  pyPairLt (x.ns, x.name) (y.ns, y.name)

/-- The "less or equal" order used by Python's `sorted` when only
`__lt__` is defined: `x` may precede `y` iff `not (y < x)`. -/
def lockLE (x y : AbstractLock) : Prop :=
  lock_lt y x = false

instance : DecidableRel lockLE := fun x y => by
  unfold lockLE; infer_instance

theorem lock_lt_iff (x y : AbstractLock) :
    lock_lt x y = true ↔ (x.ns < y.ns ∨ (x.ns = y.ns ∧ x.name < y.name)) := by
  simp [lock_lt, pyPairLt]

theorem lockLE_iff (x y : AbstractLock) :
    lockLE x y ↔ (x.ns < y.ns ∨ (x.ns = y.ns ∧ x.name ≤ y.name)) := by
  simp only [lockLE, ← Bool.not_eq_true, lock_lt_iff]
  omega

instance : IsTotal AbstractLock lockLE :=
  ⟨fun a b => by rw [lockLE_iff, lockLE_iff]; omega⟩

instance : IsTrans AbstractLock lockLE :=
  ⟨fun a b c hab hbc => by
    rw [lockLE_iff] at hab hbc ⊢; omega⟩

/-- The working list built by `context.__init__`:
`self._locks = sorted(set(locks))`.  `set` deduplicates by the lock key
(the `__eq__`/`__hash__` of `AbstractLock`); its iteration order is
arbitrary, modelled here by `List.dedup`.  `sorted` is a stable sort
driven by `__lt__`, modelled by `insertionSort` over `lockLE`. -/
def context_init (locks : List AbstractLock) : List AbstractLock :=
  List.insertionSort lockLE locks.dedup

/-- The mutable state of a `context` object: the working list
`self._locks` and the held list `self._held_locks`. -/
structure Ctx where
  locks : List AbstractLock
  held : List AbstractLock
deriving DecidableEq

/-- A fresh context: `self._locks = sorted(set(locks))`,
`self._held_locks = []`. -/
def context_new (locks : List AbstractLock) : Ctx :=
  ⟨context_init locks, []⟩

/-- An exception raised by a lock call: by `lock.acquire()` or by
`lock.release()`. -/
inductive LockErr
  | acqErr (l : AbstractLock)
  | relErr (l : AbstractLock)
deriving DecidableEq

/-- An exception visible to the guard's caller: a lock exception
propagated unchanged, the guard's own aggregate `ReleaseError(errors)`,
or an arbitrary error raised by the protected body. -/
inductive PyError
  | fromLock (e : LockErr)
  | releaseError (errs : List LockErr)
  | bodyErr (code : Nat)
deriving DecidableEq

/-- A call made on a lock object. -/
inductive Event
  | acquire (l : AbstractLock)
  | release (l : AbstractLock)
deriving DecidableEq

/-- The body of `context._release`'s `while` loop, run to completion.
The argument is the held list in pop order (`self._held_locks`
reversed, since `list.pop()` removes the last element).  Returns the
release steps performed — each step records the lock passed to
`release()` together with the content of `self._held_locks` at the
moment of that call (the lock is popped first) — and the `errors` list
accumulated across the loop. -/
def releaseAll (rOk : AbstractLock → Bool) :
    List AbstractLock → List (AbstractLock × List AbstractLock) × List LockErr
  | [] => ([], [])
  | l :: rest =>
    let r := releaseAll rOk rest
    ((l, rest.reverse) :: r.1,
     (if rOk l then [] else [LockErr.relErr l]) ++ r.2)

/-- Result of one call to `context._release`. -/
structure ReleaseOut where
  ctx : Ctx
  steps : List (AbstractLock × List AbstractLock)
  errs : List LockErr
deriving DecidableEq

/-- `context._release`: pop every held lock (most recently acquired
first), call `release()` on it, collect errors; raise
`ReleaseError(errors)` iff `errs` is nonempty.  The held list is
drained by the loop. -/
def context_release (rOk : AbstractLock → Bool) (c : Ctx) : ReleaseOut :=
  let r := releaseAll rOk c.held.reverse
  ⟨⟨c.locks, []⟩, r.1, r.2⟩

/-- Result of `context.__enter__` or `context.__exit__`: the updated
context, the trace of lock calls, the exception raised to the caller
(`none` when the call returns normally, and for `__exit__` the
exception that continues to propagate), and the errors sent to the
log. -/
structure GuardStep where
  ctx : Ctx
  events : List Event
  raised : Option PyError
  logged : List PyError
deriving DecidableEq

/-- The `for` loop of `context.__enter__` over the remaining locks,
carrying `self._held_locks`.  On each lock: `acquire()`; on success
append it to the held list and continue; on failure capture the
exception, run `self._release()` (logging its `ReleaseError`, if any),
and re-raise the original acquisition exception. -/
def enterLoop (aOk rOk : AbstractLock → Bool) :
    List AbstractLock → List AbstractLock →
    List Event × List AbstractLock × Option PyError × List PyError
  | [], held => ([], held, none, [])
  | l :: rest, held =>
    if aOk l then
      let r := enterLoop aOk rOk rest (held ++ [l])
      (Event.acquire l :: r.1, r.2.1, r.2.2.1, r.2.2.2)
    else
      let rel := releaseAll rOk held.reverse
      (Event.acquire l :: rel.1.map (fun s => Event.release s.1),
       [],
       some (PyError.fromLock (LockErr.acqErr l)),
       if rel.2.isEmpty then [] else [PyError.releaseError rel.2])

/-- `context.__enter__`. -/
def context_enter (aOk rOk : AbstractLock → Bool) (c : Ctx) : GuardStep :=
  let r := enterLoop aOk rOk c.locks c.held
  ⟨⟨c.locks, r.2.1⟩, r.1, r.2.2.1, r.2.2.2⟩

/-- `context.__exit__`, with `excIn` the exception propagating out of
the protected body (`none` on normal exit).  Runs `self._release()`;
if it raises `ReleaseError` then: with no body exception the
`ReleaseError` is raised to the caller, otherwise it is logged and
`False` is returned so the body's exception propagates unchanged. -/
def context_exit (rOk : AbstractLock → Bool) (c : Ctx) (excIn : Option PyError) :
    GuardStep :=
  let r := releaseAll rOk c.held.reverse
  let evs := r.1.map (fun s => Event.release s.1)
  if r.2.isEmpty then
    ⟨⟨c.locks, []⟩, evs, excIn, []⟩
  else
    match excIn with
    | none => ⟨⟨c.locks, []⟩, evs, some (PyError.releaseError r.2), []⟩
    | some e => ⟨⟨c.locks, []⟩, evs, some e, [PyError.releaseError r.2]⟩

/-- The locks passed to `acquire()` in a trace, in call order. -/
def acquireCalls (evs : List Event) : List AbstractLock :=
  evs.filterMap fun e =>
    match e with
    | Event.acquire l => some l
    | Event.release _ => none

/-- The locks passed to `release()` in a trace, in call order. -/
def releaseCalls (evs : List Event) : List AbstractLock :=
  evs.filterMap fun e =>
    match e with
    | Event.release l => some l
    | Event.acquire _ => none

/-- The release errors a teardown pass over held list `held` collects:
one per lock whose `release()` fails, in reverse-acquisition order. -/
def relFailures (rOk : AbstractLock → Bool) (held : List AbstractLock) :
    List LockErr :=
  (held.reverse.filter fun l => ! rOk l).map LockErr.relErr

/-- Sample lock `a` (namespace 5, name 1) for concrete evaluations. -/
def lockA : AbstractLock := ⟨0, 5, 1, 0⟩

/-- Sample lock `b` (namespace 5, name 2) for concrete evaluations. -/
def lockB : AbstractLock := ⟨0, 5, 2, 0⟩

/-- Sample lock `c` (namespace 5, name 3) for concrete evaluations. -/
def lockC : AbstractLock := ⟨0, 5, 3, 0⟩

/-- Oracle under which every lock call succeeds. -/
def allOk (_ : AbstractLock) : Bool := true

/-- Oracle under which every lock call fails. -/
def allFail (_ : AbstractLock) : Bool := false

/-- Oracle under which calls succeed except on locks named `2`
(so `lockB` fails). -/
def okExceptB (l : AbstractLock) : Bool := l.name != 2

theorem releaseAll_steps_fst (rOk : AbstractLock → Bool) (xs : List AbstractLock) :
    (releaseAll rOk xs).1.map Prod.fst = xs := by
  induction xs with
  | nil => rfl
  | cons l rest ih => simp [releaseAll, ih]

theorem releaseAll_errs (rOk : AbstractLock → Bool) (xs : List AbstractLock) :
    (releaseAll rOk xs).2 = (xs.filter fun l => ! rOk l).map LockErr.relErr := by
  induction xs with
  | nil => rfl
  | cons l rest ih =>
    cases h : rOk l <;> simp [releaseAll, ih, List.filter_cons, h]

theorem releaseAll_errs_rev (rOk : AbstractLock → Bool) (held : List AbstractLock) :
    (releaseAll rOk held.reverse).2 = relFailures rOk held := by
  rw [releaseAll_errs]; rfl

theorem acquireCalls_append (a b : List Event) :
    acquireCalls (a ++ b) = acquireCalls a ++ acquireCalls b := by
  simp [acquireCalls]

theorem acquireCalls_map_acquire (ls : List AbstractLock) :
    acquireCalls (ls.map Event.acquire) = ls := by
  induction ls with
  | nil => rfl
  | cons l rest ih => simpa [acquireCalls] using ih

theorem acquireCalls_map_release (steps : List (AbstractLock × List AbstractLock)) :
    acquireCalls (steps.map fun s => Event.release s.1) = [] := by
  simp [acquireCalls, List.filterMap_map]

theorem releaseCalls_map_release (steps : List (AbstractLock × List AbstractLock)) :
    releaseCalls (steps.map fun s => Event.release s.1) = steps.map Prod.fst := by
  induction steps with
  | nil => rfl
  | cons s rest ih => simpa [releaseCalls] using ih

theorem enterLoop_all_ok (aOk rOk : AbstractLock → Bool)
    (locks held : List AbstractLock) (h : ∀ l ∈ locks, aOk l = true) :
    enterLoop aOk rOk locks held = (locks.map Event.acquire, held ++ locks, none, []) := by
  induction locks generalizing held with
  | nil => simp [enterLoop]
  | cons l rest ih =>
    have hl : aOk l = true := h l (by simp)
    have ih' := ih (held ++ [l]) (fun x hx => h x (by simp [hx]))
    simp [enterLoop, hl, ih']

theorem enterLoop_fail (aOk rOk : AbstractLock → Bool)
    (pre : List AbstractLock) (lk : AbstractLock) (rest held : List AbstractLock)
    (hpre : ∀ l ∈ pre, aOk l = true) (hlk : aOk lk = false) :
    enterLoop aOk rOk (pre ++ lk :: rest) held =
      (pre.map Event.acquire ++
        Event.acquire lk ::
          ((releaseAll rOk (held ++ pre).reverse).1.map fun s => Event.release s.1),
       [],
       some (PyError.fromLock (LockErr.acqErr lk)),
       if (releaseAll rOk (held ++ pre).reverse).2.isEmpty then []
       else [PyError.releaseError (releaseAll rOk (held ++ pre).reverse).2]) := by
  induction pre generalizing held with
  | nil => simp [enterLoop, hlk]
  | cons p pre ih =>
    have hp : aOk p = true := hpre p (by simp)
    have ih' := ih (held ++ [p]) (fun x hx => hpre x (by simp [hx]))
    simp [enterLoop, hp, ih']

theorem releaseAll_release_events (rOk : AbstractLock → Bool) (xs : List AbstractLock) :
    ((releaseAll rOk xs).1.map fun s => Event.release s.1) = xs.map Event.release := by
  have h := congrArg (List.map Event.release) (releaseAll_steps_fst rOk xs)
  simpa [List.map_map] using h

theorem releaseCalls_map_release_lock (xs : List AbstractLock) :
    releaseCalls (xs.map Event.release) = xs := by
  induction xs with
  | nil => rfl
  | cons l rest ih => simpa [releaseCalls] using ih

theorem context_exit_events (rOk : AbstractLock → Bool) (c : Ctx) (excIn : Option PyError) :
    (context_exit rOk c excIn).events = c.held.reverse.map Event.release := by
  unfold context_exit
  cases h : (releaseAll rOk c.held.reverse).2.isEmpty <;> cases excIn <;>
    simp [h, releaseAll_release_events]

theorem context_exit_raised_logged (rOk : AbstractLock → Bool) (c : Ctx)
    (excIn : Option PyError) :
    (context_exit rOk c excIn).raised =
      (if (relFailures rOk c.held).isEmpty then excIn
       else
         match excIn with
         | none => some (PyError.releaseError (relFailures rOk c.held))
         | some e => some e) ∧
    (context_exit rOk c excIn).logged =
      (if (relFailures rOk c.held).isEmpty then []
       else
         match excIn with
         | none => []
         | some _ => [PyError.releaseError (relFailures rOk c.held)]) := by
  unfold context_exit
  rw [← releaseAll_errs_rev rOk c.held]
  cases h : (releaseAll rOk c.held.reverse).2.isEmpty <;> cases excIn <;> simp [h]

theorem context_init_toFinset (L : List AbstractLock) :
    (context_init L).toFinset = L.toFinset := by
  refine List.toFinset.ext fun x => ?_
  simp [context_init, List.mem_insertionSort, List.mem_dedup]

theorem context_init_nodup (L : List AbstractLock) : (context_init L).Nodup :=
  (List.perm_insertionSort lockLE L.dedup).nodup_iff.mpr (List.nodup_dedup L)

theorem context_init_mem (L : List AbstractLock) (l : AbstractLock) :
    l ∈ context_init L ↔ l ∈ L := by
  simp [context_init, List.mem_insertionSort, List.mem_dedup]

theorem context_init_sorted (L : List AbstractLock) :
    List.Sorted lockLE (context_init L) :=
  List.sorted_insertionSort lockLE L.dedup

theorem enterLoop_acquireCalls_prefix (aOk rOk : AbstractLock → Bool)
    (locks held : List AbstractLock) :
    ∃ n, acquireCalls (enterLoop aOk rOk locks held).1 = locks.take n := by
  induction locks generalizing held with
  | nil => exact ⟨0, rfl⟩
  | cons l rest ih =>
    by_cases hl : aOk l = true
    · obtain ⟨n, hn⟩ := ih (held ++ [l])
      refine ⟨n + 1, ?_⟩
      simp only [enterLoop, hl, if_true, List.take_succ_cons]
      simpa [acquireCalls] using hn
    · refine ⟨1, ?_⟩
      rw [Bool.not_eq_true] at hl
      simp [enterLoop, hl, acquireCalls, List.filterMap_map]

theorem releaseAll_popped_not_held (rOk : AbstractLock → Bool)
    (xs : List AbstractLock) (h : xs.Nodup) :
    ∀ s ∈ (releaseAll rOk xs).1, s.1 ∉ s.2 := by
  induction xs with
  | nil => intro s hs; simp [releaseAll] at hs
  | cons l rest ih =>
    intro s hs
    rw [List.nodup_cons] at h
    simp only [releaseAll, List.mem_cons] at hs
    rcases hs with rfl | hs
    · simpa using h.1
    · exact ih h.2 s hs

theorem lockLE_antisymm_pairs (a b : AbstractLock)
    (h1 : lockLE a b) (h2 : lockLE b a) : a.ns = b.ns ∧ a.name = b.name := by
  rw [lockLE_iff] at h1 h2; omega

theorem sorted_nodup_unique :
    ∀ (l1 l2 : List AbstractLock), List.Perm l1 l2 →
      List.Sorted lockLE l1 → List.Sorted lockLE l2 →
      (∀ x ∈ l1, ∀ y ∈ l1, x.ns = y.ns → x.name = y.name → x = y) →
      l1 = l2 := by
  intro l1
  induction l1 with
  | nil =>
    intro l2 p _ _ _
    rw [p.symm.eq_nil]
  | cons a t1 ih =>
    intro l2 p s1 s2 hdist
    cases l2 with
    | nil => exact absurd p.eq_nil (by simp)
    | cons b t2 =>
      have hab : a = b := by
        have ha2 : a ∈ b :: t2 := p.mem_iff.mp (by simp)
        have hb1 : b ∈ a :: t1 := p.symm.mem_iff.mp (by simp)
        rcases List.mem_cons.mp ha2 with h | h
        · exact h
        rcases List.mem_cons.mp hb1 with h' | h'
        · exact h'.symm
        have hle1 : lockLE a b := (List.sorted_cons.mp s1).1 b h'
        have hle2 : lockLE b a := (List.sorted_cons.mp s2).1 a h
        obtain ⟨hns, hname⟩ := lockLE_antisymm_pairs a b hle1 hle2
        exact hdist a (by simp) b (by simp [h']) hns hname
      subst hab
      have p' : List.Perm t1 t2 := p.cons_inv
      have ht := ih t2 p' (List.sorted_cons.mp s1).2 (List.sorted_cons.mp s2).2
        (fun x hx y hy => hdist x (by simp [hx]) y (by simp [hy]))
      rw [ht]

/-- C1: for every sorted working list `pre ++ lk :: rest` whose k-th
lock `lk` (k = |pre| + 1) fails to acquire during `__enter__` while the
first k−1 locks acquire successfully, entry acquires exactly the first
k locks, then releases exactly the first k−1 locks in reverse
acquisition order, leaves the held set empty, and raises the original
acquisition failure to the caller; when the rollback releases
themselves fail, their aggregate `ReleaseError` is logged, not
raised. -/
theorem enter_kth_failure_rollback (aOk rOk : AbstractLock → Bool)
    (pre : List AbstractLock) (lk : AbstractLock) (rest : List AbstractLock)
    (_hsorted : List.Sorted lockLE (pre ++ lk :: rest))
    (hpre : ∀ l ∈ pre, aOk l = true) (hlk : aOk lk = false) :
    context_enter aOk rOk ⟨pre ++ lk :: rest, []⟩ =
      ⟨⟨pre ++ lk :: rest, []⟩,
       pre.map Event.acquire ++
         Event.acquire lk :: pre.reverse.map Event.release,
       some (PyError.fromLock (LockErr.acqErr lk)),
       if (relFailures rOk pre).isEmpty then []
       else [PyError.releaseError (relFailures rOk pre)]⟩ := by
  have h := enterLoop_fail aOk rOk pre lk rest [] hpre hlk
  rw [List.nil_append] at h
  simp only [context_enter, h]
  simp [releaseAll_release_events, releaseAll_errs_rev]

/-- C1 witness: working list `[lockA, lockB, lockC]`, acquisition of
`lockB` (k = 2) fails, and every rollback release fails as well. -/
theorem enter_kth_failure_rollback_witness :
    (List.Sorted lockLE ([lockA] ++ lockB :: [lockC]) ∧
      (∀ l ∈ [lockA], okExceptB l = true) ∧ okExceptB lockB = false) ∧
    context_enter okExceptB allFail ⟨[lockA] ++ lockB :: [lockC], []⟩ =
      ⟨⟨[lockA] ++ lockB :: [lockC], []⟩,
       [lockA].map Event.acquire ++
         Event.acquire lockB :: [lockA].reverse.map Event.release,
       some (PyError.fromLock (LockErr.acqErr lockB)),
       if (relFailures allFail [lockA]).isEmpty then []
       else [PyError.releaseError (relFailures allFail [lockA])]⟩ :=
  ⟨⟨by decide, by decide, by decide⟩,
   enter_kth_failure_rollback okExceptB allFail [lockA] lockB [lockC]
     (by decide) (by decide) (by decide)⟩

/-- C2: when the protected body raised a failure `e`, `__exit__` lets
exactly `e` reach the caller, whether the releases succeed or not; any
release failures are only logged, as a single aggregate
`ReleaseError`, and never replace `e`. -/
theorem exit_body_error_always_wins (rOk : AbstractLock → Bool) (c : Ctx)
    (e : PyError) :
    (context_exit rOk c (some e)).raised = some e ∧
    (context_exit rOk c (some e)).logged =
      (if (relFailures rOk c.held).isEmpty then []
       else [PyError.releaseError (relFailures rOk c.held)]) := by
  obtain ⟨hr, hl⟩ := context_exit_raised_logged rOk c (some e)
  constructor
  · rw [hr]; cases h : (relFailures rOk c.held).isEmpty <;> simp
  · rw [hl]

/-- C3: when the protected body succeeded (`excIn = none`) and at least
one `release()` fails, `__exit__` raises a single aggregate
`ReleaseError` wrapping the full list of collected release errors, one
per failing lock, in reverse-acquisition order. -/
theorem exit_clean_body_release_aggregate (rOk : AbstractLock → Bool)
    (c : Ctx) (h : ∃ l ∈ c.held, rOk l = false) :
    (context_exit rOk c none).raised =
      some (PyError.releaseError
        ((c.held.reverse.filter fun l => ! rOk l).map LockErr.relErr)) := by
  obtain ⟨l, hl, hfail⟩ := h
  have hmem : LockErr.relErr l ∈ relFailures rOk c.held :=
    List.mem_map_of_mem _
      (List.mem_filter.mpr ⟨List.mem_reverse.mpr hl, by simp [hfail]⟩)
  have hne : (relFailures rOk c.held).isEmpty = false := by
    rcases hfe : relFailures rOk c.held with _ | ⟨e0, es⟩
    · rw [hfe] at hmem; simp at hmem
    · rfl
  obtain ⟨hr, _⟩ := context_exit_raised_logged rOk c none
  rw [hr, hne]
  simp [relFailures]

/-- C3 witness: held locks `[lockA, lockB]`, the release of `lockB`
fails; the guard raises `ReleaseError([relErr lockB])`. -/
theorem exit_clean_body_release_aggregate_witness :
    (∃ l ∈ [lockA, lockB], okExceptB l = false) ∧
    (context_exit okExceptB ⟨[lockA, lockB], [lockA, lockB]⟩ none).raised =
      some (PyError.releaseError [LockErr.relErr lockB]) :=
  ⟨by decide,
   (exit_clean_body_release_aggregate okExceptB
       ⟨[lockA, lockB], [lockA, lockB]⟩ (by decide)).trans (by decide)⟩

/-- C4: for every input collection `L` and any acquisition outcomes,
the sequence of `acquire()` calls made during `__enter__` of a freshly
constructed guard is non-decreasing under the `(ns, name)` order: the
guard walks the deduplicated working list in ascending sorted order. -/
theorem acquire_calls_sorted (aOk rOk : AbstractLock → Bool)
    (L : List AbstractLock) :
    List.Sorted lockLE
      (acquireCalls (context_enter aOk rOk (context_new L)).events) := by
  obtain ⟨n, hn⟩ := enterLoop_acquireCalls_prefix aOk rOk (context_init L) []
  have hev : (context_enter aOk rOk (context_new L)).events =
      (enterLoop aOk rOk (context_init L) []).1 := rfl
  rw [hev, hn]
  exact List.Pairwise.sublist (List.take_sublist n _) (context_init_sorted L)

/-- C5: when every `acquire()` succeeds, the sequence of `release()`
calls made at `__exit__` is the exact reverse of the sequence of
`acquire()` calls made at `__enter__`. -/
theorem release_calls_reverse_acquire (aOk rOk : AbstractLock → Bool)
    (L : List AbstractLock) (excIn : Option PyError)
    (h : ∀ l ∈ L, aOk l = true) :
    releaseCalls
        (context_exit rOk (context_enter aOk rOk (context_new L)).ctx
          excIn).events =
      (acquireCalls (context_enter aOk rOk (context_new L)).events).reverse := by
  have hws : ∀ l ∈ context_init L, aOk l = true := fun l hl =>
    h l ((context_init_mem L l).mp hl)
  have he := enterLoop_all_ok aOk rOk (context_init L) [] hws
  have hctx : (context_enter aOk rOk (context_new L)).ctx =
      ⟨context_init L, context_init L⟩ := by
    simp [context_enter, context_new, he]
  have hev : (context_enter aOk rOk (context_new L)).events =
      (context_init L).map Event.acquire := by
    simp [context_enter, context_new, he]
  rw [hctx, hev, context_exit_events, acquireCalls_map_acquire,
    releaseCalls_map_release_lock]

/-- C5 witness: input `[lockB, lockA]`, all calls succeed. -/
theorem release_calls_reverse_acquire_witness :
    (∀ l ∈ [lockB, lockA], allOk l = true) ∧
    releaseCalls
        (context_exit allOk
          (context_enter allOk allOk (context_new [lockB, lockA])).ctx
          none).events =
      (acquireCalls
        (context_enter allOk allOk (context_new [lockB, lockA])).events).reverse :=
  ⟨by decide,
   release_calls_reverse_acquire allOk allOk [lockB, lockA] none (by decide)⟩

/-- C6: construction deduplicates by lock identity — the working list
has exactly the distinct `(type, ns, name, mode)` identities of the
input, none repeated — acquires nothing (the held list starts empty),
and never fails; an empty input yields a no-op guard: entry and exit
make no `acquire()`/`release()` calls and raise no error. -/
theorem construction_dedups_and_empty_is_noop (aOk rOk : AbstractLock → Bool)
    (L : List AbstractLock) :
    (context_new L).locks.toFinset = L.toFinset ∧
    (context_new L).locks.Nodup ∧
    (context_new L).held = [] ∧
    context_enter aOk rOk (context_new []) = ⟨⟨[], []⟩, [], none, []⟩ ∧
    context_exit rOk (context_enter aOk rOk (context_new [])).ctx none =
      ⟨⟨[], []⟩, [], none, []⟩ :=
  ⟨context_init_toFinset L, context_init_nodup L, rfl, rfl, rfl⟩

/-- C7: two locks are equal (by `__eq__`) iff their
`(type, ns, name, mode)` tuples match — the concrete type participates
in equality — and one lock orders before another (by `__lt__`) iff its
`(ns, name)` pair is lexicographically smaller — neither mode nor type
participates in ordering. -/
theorem lock_eq_and_lt_semantics (x y : AbstractLock) :
    (lock_eq x y = true ↔
      (x.ty = y.ty ∧ x.ns = y.ns ∧ x.name = y.name ∧ x.mode = y.mode)) ∧
    (lock_lt x y = true ↔
      (x.ns < y.ns ∨ (x.ns = y.ns ∧ x.name < y.name))) := by
  constructor
  · simp [lock_eq, lock_key, Prod.ext_iff]
  · exact lock_lt_iff x y

/-- C8: in a teardown pass (`_release`) over a duplicate-free held
list, every lock is popped from the held list before its `release()`
is attempted (so the lock is absent from the held list at the moment
of its own release call), each held lock's `release()` is called
exactly once — the pass walks the held list in reverse and never
retries — and the held list is empty when the pass finishes, whatever
the release outcomes. -/
theorem release_pass_invariant (rOk : AbstractLock → Bool) (c : Ctx)
    (h : c.held.Nodup) :
    (context_release rOk c).steps.map Prod.fst = c.held.reverse ∧
    (∀ s ∈ (context_release rOk c).steps, s.1 ∉ s.2) ∧
    ((context_release rOk c).steps.map Prod.fst).Nodup ∧
    (context_release rOk c).ctx.held = [] := by
  refine ⟨releaseAll_steps_fst rOk c.held.reverse, ?_, ?_, rfl⟩
  · exact releaseAll_popped_not_held rOk c.held.reverse
      (List.nodup_reverse.mpr h)
  · show ((releaseAll rOk c.held.reverse).1.map Prod.fst).Nodup
    rw [releaseAll_steps_fst]
    exact List.nodup_reverse.mpr h

/-- C8 witness: held list `[lockA, lockB]`, every release fails. -/
theorem release_pass_invariant_witness :
    ([lockA, lockB] : List AbstractLock).Nodup ∧
    ((context_release allFail ⟨[lockA, lockB], [lockA, lockB]⟩).steps.map
        Prod.fst = [lockB, lockA] ∧
      (∀ s ∈ (context_release allFail ⟨[lockA, lockB], [lockA, lockB]⟩).steps,
        s.1 ∉ s.2) ∧
      ((context_release allFail ⟨[lockA, lockB], [lockA, lockB]⟩).steps.map
        Prod.fst).Nodup ∧
      (context_release allFail ⟨[lockA, lockB], [lockA, lockB]⟩).ctx.held = []) :=
  ⟨by decide,
   release_pass_invariant allFail ⟨[lockA, lockB], [lockA, lockB]⟩ (by decide)⟩

/-- C9: the working list `_locks` built at construction is never
mutated afterward: `__enter__`, `__exit__` and `_release` change only
the held-list bookkeeping, so the `locks` field is identical before
and after each operation, on success and failure paths alike. -/
theorem working_list_frame (aOk rOk : AbstractLock → Bool) (c : Ctx)
    (excIn : Option PyError) :
    (context_enter aOk rOk c).ctx.locks = c.locks ∧
    (context_exit rOk c excIn).ctx.locks = c.locks ∧
    (context_release rOk c).ctx.locks = c.locks := by
  refine ⟨rfl, ?_, rfl⟩
  unfold context_exit
  cases h : (releaseAll rOk c.held.reverse).2.isEmpty <;> cases excIn <;>
    simp [h]

/-- C10: two input collections with the same set of distinct lock
identities construct working lists that are equal as sets; and when
the distinct identities moreover have pairwise-distinct `(ns, name)`
pairs, the working lists are identical as sequences — the acquisition
order is a deterministic function of the identity set. -/
theorem init_insensitive_to_input_order (L1 L2 : List AbstractLock)
    (hset : L1.toFinset = L2.toFinset) :
    (context_init L1).toFinset = (context_init L2).toFinset ∧
    ((∀ x ∈ L1, ∀ y ∈ L1, x.ns = y.ns → x.name = y.name → x = y) →
      context_init L1 = context_init L2) := by
  constructor
  · rw [context_init_toFinset, context_init_toFinset, hset]
  · intro hdist
    have hfin : (context_init L1).toFinset = (context_init L2).toFinset := by
      rw [context_init_toFinset, context_init_toFinset, hset]
    have hperm := List.perm_of_nodup_nodup_toFinset_eq
      (context_init_nodup L1) (context_init_nodup L2) hfin
    exact sorted_nodup_unique (context_init L1) (context_init L2) hperm
      (context_init_sorted L1) (context_init_sorted L2)
      (fun x hx y hy => hdist x ((context_init_mem L1 x).mp hx)
        y ((context_init_mem L1 y).mp hy))

/-- C10 witness: `[lockB, lockA, lockA]` and `[lockA, lockB]` carry the
same identity set with pairwise-distinct `(ns, name)` pairs. -/
theorem init_insensitive_to_input_order_witness :
    ([lockB, lockA, lockA] : List AbstractLock).toFinset =
      ([lockA, lockB] : List AbstractLock).toFinset ∧
    (∀ x ∈ [lockB, lockA, lockA], ∀ y ∈ [lockB, lockA, lockA],
      x.ns = y.ns → x.name = y.name → x = y) ∧
    (context_init [lockB, lockA, lockA]).toFinset =
      (context_init [lockA, lockB]).toFinset ∧
    context_init [lockB, lockA, lockA] = context_init [lockA, lockB] :=
  ⟨by decide, by decide,
   (init_insensitive_to_input_order [lockB, lockA, lockA] [lockA, lockB]
     (by decide)).1,
   (init_insensitive_to_input_order [lockB, lockA, lockA] [lockA, lockB]
     (by decide)).2 (by decide)⟩
